import Mathlib

/-!
Verification of the htmlutil package: a shallow embedding of the node-search
and tree-mutation functions of `htmlutil.go` (and of the older error-reporting
variant of `GetHtmlNodes`), with theorems settling the specified properties.

The collaborator data model (`golang.org/x/net/html`) is embedded as a rose
tree.  Pointer identity of `*html.Node` is modelled by an `id` field; the
parser invariant "proper rooted tree" corresponds to all ids in a tree being
distinct.
-/

set_option maxHeartbeats 1000000

namespace HtmlUtil

/-- Node kinds of the collaborator HTML parser (`html.NodeType`).  Only
`elementNode` participates in matching. -/
inductive NodeType where
  | errorNode
  | textNode
  | documentNode
  | elementNode
  | commentNode
  | doctypeNode
  | rawNode
deriving DecidableEq, Repr

/-- An HTML attribute: a (key, value) pair of strings.  The `Namespace` field
of the collaborator type is never consulted by this package and is omitted. -/
structure Attribute where
  key : String
  val : String
deriving DecidableEq, Repr

/-- A parsed HTML node.  The collaborator's `html.Node` is a mutable record
linked by `Parent` / `FirstChild` / `NextSibling` pointers; we embed it as a
rose tree whose `children` list enumerates the `FirstChild`/`NextSibling`
chain in document order.  The `id` field models pointer identity. -/
inductive Node where
  | mk (id : Nat) (type : NodeType) (data : String) (attr : List Attribute)
      (children : List Node)

def Node.id : Node → Nat
  | .mk i _ _ _ _ => i

def Node.type : Node → NodeType
  | .mk _ ty _ _ _ => ty

def Node.data : Node → String
  | .mk _ _ d _ _ => d

def Node.attr : Node → List Attribute
  | .mk _ _ _ a _ => a

def Node.children : Node → List Node
  | .mk _ _ _ _ cs => cs

/-- The zero value `html.Node{}` returned by `GetFirstHtmlNode` when nothing
matches: every field is the zero value of its type. -/
def emptyNode : Node := .mk 0 .errorNode "" [] []

mutual

/-- Pre-order depth-first enumeration of the nodes of a tree (the node itself,
then the subtrees of its children left to right). -/
def preorder : Node → List Node
  | .mk i ty d ats cs => .mk i ty d ats cs :: preorderList cs

/-- Pre-order enumeration of a forest, left to right. -/
def preorderList : List Node → List Node
  | [] => []
  | c :: cs => preorder c ++ preorderList cs

end

/-- Ids of all nodes of a tree, in document order. -/
def ids (t : Node) : List Nat := (preorder t).map Node.id

/-- Ids of all nodes of a forest, in document order. -/
def idsList (cs : List Node) : List Nat := (preorderList cs).map Node.id

/-- The attribute filter of `GetHtmlNodes` (`htmlutil.go` lines 52-53): the
pair passes when `attr == "" || a.Key == attr` and
`attrValue == "" || a.Val == attrValue`. -/
def attrPairMatch (attr attrValue : String) (a : Attribute) : Prop :=
  (attr = "" ∨ a.key = attr) ∧ (attrValue = "" ∨ a.val = attrValue)

instance (attr attrValue : String) (a : Attribute) :
    Decidable (attrPairMatch attr attrValue a) := by
  unfold attrPairMatch; infer_instance

/-- The per-attribute loop of `GetHtmlNodes` (`htmlutil.go` lines 51-60):
for each attribute pair passing the filter the node `n` is appended to the
accumulator, and when `count != -1 && len(foundNodes) >= count` the loop
breaks. -/
def attrLoop (attr attrValue : String) (count : Int) (n : Node) :
    List Attribute → List Node → List Node
  | [], acc => acc
  | a :: rest, acc =>
    if attrPairMatch attr attrValue a then
      let acc' := acc ++ [n]
      if count ≠ -1 ∧ count ≤ (acc'.length : Int) then acc'
      else attrLoop attr attrValue count n rest acc'
    else attrLoop attr attrValue count n rest acc

mutual

/-- The recursive closure `f` of `GetHtmlNodes` (`htmlutil.go` lines 41-70),
with the shared mutable accumulator `foundNodes` threaded explicitly.  The
node is examined first (tag filter, then either the unconditional append for
empty attribute criteria or the per-attribute loop), after which the children
are visited under the count guard. -/
def visit (tag attr attrValue : String) (count : Int) :
    Node → List Node → List Node
  | n@(.mk _ ty d _ cs), acc =>
    let acc1 :=
      if ty = .elementNode ∧ (tag = "" ∨ d = tag) then
        if attr = "" ∧ attrValue = "" then acc ++ [n]
        else attrLoop attr attrValue count n n.attr acc
      else acc
    visitChildren tag attr attrValue count cs acc1

/-- The child loop of `f` (`htmlutil.go` lines 64-69): each child is visited
only while `count == -1 || len(foundNodes) < count`. -/
def visitChildren (tag attr attrValue : String) (count : Int) :
    List Node → List Node → List Node
  | [], acc => acc
  | c :: cs, acc =>
    let acc' :=
      if count = -1 ∨ (acc.length : Int) < count then
        visit tag attr attrValue count c acc
      else acc
    visitChildren tag attr attrValue count cs acc'

end

/-- `GetHtmlNodes` (`htmlutil.go` lines 37-74): runs the recursive search from
the given node with an empty accumulator. -/
def GetHtmlNodes (n : Node) (tag attr attrValue : String) (count : Int) :
    List Node :=
  visit tag attr attrValue count n []

/-- `GetAllHtmlNodes` (`htmlutil.go` lines 14-16). -/
def GetAllHtmlNodes (n : Node) (tag attr attrValue : String) : List Node :=
  GetHtmlNodes n tag attr attrValue (-1)

/-- `GetFirstHtmlNode` (`htmlutil.go` lines 20-28): the head of the count-1
search when it is non-empty, otherwise the zero value `&html.Node{}`. -/
def GetFirstHtmlNode (n : Node) (tag attr attrValue : String) : Node :=
  let htmlNodes := GetHtmlNodes n tag attr attrValue 1
  if 0 < htmlNodes.length then htmlNodes.getD 0 emptyNode else emptyNode

/-- Number of times one node is appended by the matching step of
`GetHtmlNodes` with unbounded count: 0 unless the node is an element passing
the tag filter; 1 when both attribute criteria are empty; otherwise the
number of attribute pairs passing the filter. -/
def matchCount (tag attr attrValue : String) (n : Node) : Nat :=
  if n.type = .elementNode ∧ (tag = "" ∨ n.data = tag) then
    if attr = "" ∧ attrValue = "" then 1
    else n.attr.countP (fun a => decide (attrPairMatch attr attrValue a))
  else 0

/-- Specification-level form of the unbounded search result: each node of the
pre-order enumeration, repeated `matchCount` times. -/
def specList (tag attr attrValue : String) (l : List Node) : List Node :=
  l.flatMap (fun m => List.replicate (matchCount tag attr attrValue m) m)

mutual

/-- One detach step `node.Parent.RemoveChild(node)` for the node whose id is
`j`, inside the tree `t` (`htmlutil.go` line 150, relying on the collaborator
`html.Node.RemoveChild`).  `RemoveChild` unlinks the child (the subtree leaves
with it).  The step dereferences the node's `Parent` pointer: when the target
is the root of `t`, or is no longer attached anywhere in `t` (it was already
detached, so its `Parent` was set to nil), the Go code dereferences a nil
pointer and panics — modelled by `none`.  With distinct ids the id determines
the pointer, so locating the unique occurrence of `j` is faithful. -/
def removeById (j : Nat) : Node → Option Node
  | .mk i ty d ats cs =>
    match removeFromList j cs with
    | some cs' => some (.mk i ty d ats cs')
    | none => none

/-- Walks a child chain looking for the node with id `j`: detaches it when it
is one of the listed children, otherwise recurses into the children. -/
def removeFromList (j : Nat) : List Node → Option (List Node)
  | [] => none
  | c :: cs =>
    if c.id = j then some cs
    else
      match removeById j c with
      | some c' => some (c' :: cs)
      | none =>
        match removeFromList j cs with
        | some cs' => some (c :: cs')
        | none => none

end

/-- The reverse-order detach loop of `RemoveHtmlNodes` (`htmlutil.go` lines
149-151), already reversed: entries are detached left to right; a panic
(`none`) aborts the remaining iterations. -/
def detachAll : List Node → Node → Option Node
  | [], t => some t
  | x :: rest, t =>
    match removeById x.id t with
    | some t' => detachAll rest t'
    | none => none

/-- `RemoveHtmlNodes` (`htmlutil.go` lines 144-153): searches with the given
criteria, then detaches the worklist entries in reverse order.  `none` models
the Go panic on a nil `Parent` dereference. -/
def RemoveHtmlNodes (n : Node) (tag attr attrValue : String) (count : Int) :
    Option Node :=
  detachAll (GetHtmlNodes n tag attr attrValue count).reverse n

/-- `RemoveAllHtmlNodes` (`htmlutil.go` lines 127-129). -/
def RemoveAllHtmlNodes (n : Node) (tag attr attrValue : String) : Option Node :=
  RemoveHtmlNodes n tag attr attrValue (-1)

/-- `RemoveFirstHtmlNode` (`htmlutil.go` lines 133-135). -/
def RemoveFirstHtmlNode (n : Node) (tag attr attrValue : String) : Option Node :=
  RemoveHtmlNodes n tag attr attrValue 1

/-! ### The error-reporting variant (the unnamed older source file)

Its `GetHtmlNodes` differs from `htmlutil.go`: the tag must equal `n.Data`
(no empty-tag wildcard), an empty `attr` matches at once (ignoring
`attrValue`), and the function additionally returns `ErrNodeNotFound` when
nothing was found. -/

/-- `ErrNodeNotFound = errors.New("no nodes found")` (unnamed file, line 13). -/
inductive HtmlError where
  | errNodeNotFound
deriving DecidableEq, Repr

/-- The per-attribute loop of the error-reporting `GetHtmlNodes` (unnamed
file, lines 49-65): when `attrValue` is empty only the key is compared,
otherwise both key and value are. -/
def attrLoopE (attr attrValue : String) (count : Int) (n : Node) :
    List Attribute → List Node → List Node
  | [], acc => acc
  | a :: rest, acc =>
    if (if attrValue = "" then a.key = attr else a.key = attr ∧ a.val = attrValue) then
      let acc' := acc ++ [n]
      if count ≠ -1 ∧ count ≤ (acc'.length : Int) then acc'
      else attrLoopE attr attrValue count n rest acc'
    else attrLoopE attr attrValue count n rest acc

mutual

/-- The recursive closure `f` of the error-reporting `GetHtmlNodes` (unnamed
file, lines 43-75).  The tag comparison is `n.Type == html.ElementNode &&
n.Data == tag` and an empty `attr` appends unconditionally. -/
def visitE (tag attr attrValue : String) (count : Int) :
    Node → List Node → List Node
  | n@(.mk _ ty d _ cs), acc =>
    let acc1 :=
      if ty = .elementNode ∧ d = tag then
        if attr = "" then acc ++ [n]
        else attrLoopE attr attrValue count n n.attr acc
      else acc
    visitChildrenE tag attr attrValue count cs acc1

/-- The child loop of the error-reporting variant (unnamed file, lines
69-74). -/
def visitChildrenE (tag attr attrValue : String) (count : Int) :
    List Node → List Node → List Node
  | [], acc => acc
  | c :: cs, acc =>
    let acc' :=
      if count = -1 ∨ (acc.length : Int) < count then
        visitE tag attr attrValue count c acc
      else acc
    visitChildrenE tag attr attrValue count cs acc'

end

/-- The error-reporting `GetHtmlNodes` (unnamed file, lines 38-83): the found
nodes together with `ErrNodeNotFound` exactly when `len(foundNodes) == 0`. -/
def GetHtmlNodesE (n : Node) (tag attr attrValue : String) (count : Int) :
    List Node × Option HtmlError :=
  let foundNodes := visitE tag attr attrValue count n []
  (foundNodes, if foundNodes.length = 0 then some .errNodeNotFound else none)

/-- The error-reporting `GetFirstHtmlNode` (unnamed file, lines 21-29). -/
def GetFirstHtmlNodeE (n : Node) (tag attr attrValue : String) :
    Node × Option HtmlError :=
  let r := GetHtmlNodesE n tag attr attrValue 1
  if 0 < r.1.length then (r.1.getD 0 emptyNode, r.2) else (emptyNode, r.2)

/-! ### `RemoveHtmlAttrs` under Go slice semantics

`processNode` (`htmlutil.go` lines 107-118) deletes from `nodeToProcess.Attr`
with `append(Attr[:i], Attr[i+1:]...)` while a `for ... range` loop is still
iterating the slice header captured at loop entry.  A Go `for i, a := range s`
freezes the length of `s` but reads `s[i]` through the shared backing array,
and `append` of this shape shifts the elements down in place.  We therefore
model the attribute slice as a backing array plus a current length (the
capacity stays the backing length), and the interpreter is fuel-indexed. -/

/-- A Go slice of attributes: shared backing array plus current length
(`len s ≤ cap s = backing.length`). -/
structure GoSlice where
  backing : List Attribute
  len : Nat
deriving DecidableEq, Repr

/-- Result of running a fragment of Go code: normal result, runtime panic, or
interpreter fuel exhaustion (never reached at the inputs evaluated here). -/
inductive ExecResult (α : Type) where
  | ok (val : α)
  | panicked
  | fuelOut
deriving DecidableEq, Repr

/-- `nodeToProcess.Attr = append(nodeToProcess.Attr[:i], nodeToProcess.Attr[i+1:]...)`
(`htmlutil.go` line 112) on the current slice `s`.  `s[i+1:]` panics when
`i+1 > len(s)`; otherwise the `len(s)-1-i` elements after position `i` are
copied down one place in the backing array (positions from `len(s)-1` keep
their old entries) and the length drops by one. -/
def sliceRemoveAt (s : GoSlice) (i : Nat) : Option GoSlice :=
  if i + 1 ≤ s.len then
    some ⟨s.backing.take i ++ (s.backing.drop (i + 1)).take (s.len - 1 - i) ++
            s.backing.drop (s.len - 1),
          s.len - 1⟩
  else none

mutual

/-- `processNode` (`htmlutil.go` lines 107-118): starts a fresh `range` loop
over the current slice. -/
def processNode (attr attrValue : String) : Nat → GoSlice → ExecResult GoSlice
  | 0, _ => .fuelOut
  | fuel + 1, s => procLoop attr attrValue fuel s.len 0 s
termination_by fuel _ => (fuel, 0)

/-- The `for i, a := range nodeToProcess.Attr` loop body of `processNode`:
`L0` is the frozen length of the loop's slice header, `i` the loop index, and
reads of `a` go through the current backing array.  On a match the element is
removed (possibly panicking) and `processNode` reruns before the stale loop
resumes at `i+1`. -/
def procLoop (attr attrValue : String) :
    Nat → Nat → Nat → GoSlice → ExecResult GoSlice
  | fuel, L0, i, s =>
    if _h : i < L0 then
      let a := s.backing.getD i ⟨"", ""⟩
      if a.key = attr ∧ a.val = attrValue then
        match sliceRemoveAt s i with
        | none => .panicked
        | some s2 =>
          match processNode attr attrValue fuel s2 with
          | .ok s3 => procLoop attr attrValue fuel L0 (i + 1) s3
          | .panicked => .panicked
          | .fuelOut => .fuelOut
      else procLoop attr attrValue fuel L0 (i + 1) s
    else .ok s
termination_by fuel L0 i _ => (fuel, L0 + 1 - i)
decreasing_by all_goals (simp_wf; omega)

end

/-- The attribute slice of a node as a Go slice value. -/
def nodeSlice (n : Node) : GoSlice := ⟨n.attr, n.attr.length⟩

/-- The worklist loop of `RemoveHtmlAttrs` (`htmlutil.go` lines 120-122):
`processNode` runs on each matched node in turn; a panic aborts the program.
Only the normal/panic outcome is tracked (the in-place attribute updates of
the processed nodes are not threaded back into the tree, which is enough for
the evaluations performed here: they panic on the first entry or touch each
node once). -/
def processWorklist (attr attrValue : String) (fuel : Nat) :
    List Node → ExecResult Unit
  | [] => .ok ()
  | n :: rest =>
    match processNode attr attrValue fuel (nodeSlice n) with
    | .ok _ => processWorklist attr attrValue fuel rest
    | .panicked => .panicked
    | .fuelOut => .fuelOut

/-- `RemoveHtmlAttrs` (`htmlutil.go` lines 105-123): search, then run
`processNode` over the worklist.  `fuel` only feeds the interpreter. -/
def RemoveHtmlAttrs (node : Node) (tag attr attrValue : String) (count : Int)
    (fuel : Nat) : ExecResult Unit :=
  processWorklist attr attrValue fuel
    (GetHtmlNodes node tag attr attrValue count)

/-! ### Basic simp lemmas -/

@[simp] theorem Node.id_mk (i ty d ats cs) : (Node.mk i ty d ats cs).id = i := rfl

@[simp] theorem Node.type_mk (i ty d ats cs) : (Node.mk i ty d ats cs).type = ty := rfl

@[simp] theorem Node.data_mk (i ty d ats cs) : (Node.mk i ty d ats cs).data = d := rfl

@[simp] theorem Node.attr_mk (i ty d ats cs) : (Node.mk i ty d ats cs).attr = ats := rfl

@[simp] theorem Node.children_mk (i ty d ats cs) :
    (Node.mk i ty d ats cs).children = cs := rfl

@[simp] theorem preorder_mk (i ty d ats cs) :
    preorder (.mk i ty d ats cs) = .mk i ty d ats cs :: preorderList cs := by
  simp [preorder]

@[simp] theorem preorderList_nil : preorderList [] = [] := by simp [preorderList]

@[simp] theorem preorderList_cons (c cs) :
    preorderList (c :: cs) = preorder c ++ preorderList cs := by
  simp [preorderList]

@[simp] theorem specList_nil (tag attr attrValue) :
    specList tag attr attrValue [] = [] := rfl

@[simp] theorem specList_cons (tag attr attrValue m l) :
    specList tag attr attrValue (m :: l) =
      List.replicate (matchCount tag attr attrValue m) m ++
        specList tag attr attrValue l := rfl

theorem specList_append (tag attr attrValue l₁ l₂) :
    specList tag attr attrValue (l₁ ++ l₂) =
      specList tag attr attrValue l₁ ++ specList tag attr attrValue l₂ := by
  simp [specList]

/-! ### The unbounded search computes `specList` -/

theorem attrLoop_unbounded (attr attrValue : String) (n : Node)
    (ats : List Attribute) (acc : List Node) :
    attrLoop attr attrValue (-1) n ats acc =
      acc ++ List.replicate
        (ats.countP fun a => decide (attrPairMatch attr attrValue a)) n := by
  induction ats generalizing acc with
  | nil => simp [attrLoop]
  | cons a rest ih =>
    by_cases h : attrPairMatch attr attrValue a
    · simp only [attrLoop, if_pos h]
      rw [if_neg (by simp)]
      rw [ih, List.countP_cons]
      simp [h, List.replicate_succ, List.append_assoc]
    · simp only [attrLoop, if_neg h]
      rw [ih, List.countP_cons]
      simp [h]

mutual

theorem visit_unbounded (tag attr attrValue : String) (n : Node)
    (acc : List Node) :
    visit tag attr attrValue (-1) n acc =
      acc ++ specList tag attr attrValue (preorder n) := by
  cases n with
  | mk i ty d ats cs =>
    rw [visit]
    have hc := visitChildren_unbounded tag attr attrValue cs
    by_cases h1 : ty = .elementNode ∧ (tag = "" ∨ d = tag)
    · by_cases h2 : attr = "" ∧ attrValue = ""
      · simp only [if_pos h1, if_pos h2]
        rw [hc]
        simp [matchCount, h1, h2]
      · simp only [if_pos h1, if_neg h2]
        rw [attrLoop_unbounded, hc]
        simp [matchCount, h1, h2, List.append_assoc]
    · simp only [if_neg h1]
      rw [hc]
      simp [matchCount, h1]

theorem visitChildren_unbounded (tag attr attrValue : String) (cs : List Node)
    (acc : List Node) :
    visitChildren tag attr attrValue (-1) cs acc =
      acc ++ specList tag attr attrValue (preorderList cs) := by
  cases cs with
  | nil => simp [visitChildren]
  | cons c cs =>
    rw [visitChildren]
    rw [if_pos (Or.inl rfl)]
    rw [visit_unbounded tag attr attrValue c acc]
    rw [visitChildren_unbounded tag attr attrValue cs]
    simp [specList_append, List.append_assoc]

end

theorem GetHtmlNodes_unbounded (n : Node) (tag attr attrValue : String) :
    GetHtmlNodes n tag attr attrValue (-1) =
      specList tag attr attrValue (preorder n) := by
  simp [GetHtmlNodes, visit_unbounded]

/-! ### Membership, order and multiplicity facts about `specList` -/

theorem mem_specList {tag attr attrValue : String} {l : List Node} {x : Node} :
    x ∈ specList tag attr attrValue l ↔
      x ∈ l ∧ 0 < matchCount tag attr attrValue x := by
  simp only [specList, List.mem_flatMap, List.mem_replicate]
  constructor
  · rintro ⟨m, hm, hk, rfl⟩
    exact ⟨hm, Nat.pos_of_ne_zero hk⟩
  · rintro ⟨hx, hk⟩
    exact ⟨x, hx, Nat.pos_iff_ne_zero.mp hk, rfl⟩

theorem specList_eq_filter (tag attr attrValue : String) (l : List Node)
    (h : ∀ m ∈ l, matchCount tag attr attrValue m ≤ 1) :
    specList tag attr attrValue l =
      l.filter (fun m => decide (0 < matchCount tag attr attrValue m)) := by
  induction l with
  | nil => rfl
  | cons m l ih =>
    have hm := h m (List.mem_cons_self m l)
    rw [specList_cons, ih fun x hx => h x (List.mem_cons_of_mem m hx)]
    rw [List.filter_cons]
    interval_cases hmc : matchCount tag attr attrValue m <;> simp [hmc]

theorem specList_eq_nil (tag attr attrValue : String) (l : List Node)
    (h : ∀ m ∈ l, matchCount tag attr attrValue m = 0) :
    specList tag attr attrValue l = [] := by
  induction l with
  | nil => rfl
  | cons m l ih =>
    rw [specList_cons, h m (List.mem_cons_self m l),
      ih fun x hx => h x (List.mem_cons_of_mem m hx)]
    rfl

/-- Index of the first occurrence of a value in a list of ids (length of the
list when absent). -/
def idxOf : List Nat → Nat → Nat
  | [], _ => 0
  | a :: l, i => if a = i then 0 else idxOf l i + 1

theorem idxOf_append_left {L₁ : List Nat} (L₂ : List Nat) {i : Nat}
    (h : i ∈ L₁) : idxOf (L₁ ++ L₂) i = idxOf L₁ i := by
  induction L₁ with
  | nil => cases h
  | cons a l ih =>
    by_cases ha : a = i
    · simp [idxOf, ha]
    · have : i ∈ l := by
        rcases List.mem_cons.mp h with h' | h'
        · exact absurd h'.symm ha
        · exact h'
      simp [idxOf, ha, ih this]

theorem idxOf_append_right {L₁ : List Nat} (L₂ : List Nat) {i : Nat}
    (h : i ∉ L₁) : idxOf (L₁ ++ L₂) i = L₁.length + idxOf L₂ i := by
  induction L₁ with
  | nil => simp [idxOf]
  | cons a l ih =>
    have ha : a ≠ i := fun e => h (e ▸ List.mem_cons_self a l)
    have hl : i ∉ l := fun hl => h (List.mem_cons_of_mem a hl)
    simp [idxOf, ha, ih hl]
    omega

/-- Helper: a constant list is pairwise related by any reflexive-at-the-value
relation. -/
theorem pairwise_replicate_of_rel {α : Type} {R : α → α → Prop} {a : α}
    (h : R a a) (n : Nat) : (List.replicate n a).Pairwise R := by
  induction n with
  | zero => simp
  | succ n ih =>
    rw [List.replicate_succ]
    exact List.Pairwise.cons (fun y hy => (List.eq_of_mem_replicate hy) ▸ h) ih

/-- Elements of the unbounded result appear in document order: positions of
their ids in the pre-order id list are non-decreasing along the result. -/
theorem specList_pairwise_idxOf (tag attr attrValue : String) (l : List Node)
    (h : (l.map Node.id).Nodup) :
    (specList tag attr attrValue l).Pairwise
      (fun x y => idxOf (l.map Node.id) x.id ≤ idxOf (l.map Node.id) y.id) := by
  induction l with
  | nil => simp
  | cons m l ih =>
    rw [specList_cons]
    have h' := h
    rw [List.map_cons, List.nodup_cons] at h'
    obtain ⟨hmem, htl⟩ := h'
    apply List.pairwise_append.mpr
    refine ⟨?_, ?_, ?_⟩
    · refine pairwise_replicate_of_rel ?_ _
      exact Nat.le_refl _
    · apply (ih htl).imp_of_mem
      intro x y hx hy hxy
      have hxl : x ∈ l := (mem_specList.mp hx).1
      have hyl : y ∈ l := (mem_specList.mp hy).1
      have hxne : m.id ≠ x.id := fun e =>
        hmem (e ▸ List.mem_map_of_mem Node.id hxl)
      have hyne : m.id ≠ y.id := fun e =>
        hmem (e ▸ List.mem_map_of_mem Node.id hyl)
      simpa [idxOf, hxne, hyne] using hxy
    · intro x hx y hy
      have hxm : x = m := List.eq_of_mem_replicate hx
      simp [hxm, idxOf]

/-- Nodes selected by a filter from a duplicate-free list sit at strictly
increasing positions. -/
theorem filter_pairwise_idxOf (p : Node → Bool) (l : List Node)
    (h : (l.map Node.id).Nodup) :
    (l.filter p).Pairwise
      (fun x y => idxOf (l.map Node.id) x.id < idxOf (l.map Node.id) y.id) := by
  induction l with
  | nil => simp
  | cons m l ih =>
    have h' := h
    rw [List.map_cons, List.nodup_cons] at h'
    obtain ⟨hmem, htl⟩ := h'
    have hlift : (l.filter p).Pairwise
        (fun x y => idxOf (m.id :: l.map Node.id) x.id <
          idxOf (m.id :: l.map Node.id) y.id) := by
      apply (ih htl).imp_of_mem
      intro x y hx hy hxy
      have hxl : x ∈ l := (List.mem_filter.mp hx).1
      have hyl : y ∈ l := (List.mem_filter.mp hy).1
      have hxne : m.id ≠ x.id := fun e =>
        hmem (e ▸ List.mem_map_of_mem Node.id hxl)
      have hyne : m.id ≠ y.id := fun e =>
        hmem (e ▸ List.mem_map_of_mem Node.id hyl)
      simpa [idxOf, hxne, hyne] using hxy
    rw [List.filter_cons]
    by_cases hp : p m
    · simp only [hp, if_pos]
      refine List.Pairwise.cons ?_ hlift
      intro y hy
      have hyl : y ∈ l := (List.mem_filter.mp hy).1
      have hyne : m.id ≠ y.id := fun e =>
        hmem (e ▸ List.mem_map_of_mem Node.id hyl)
      simp [idxOf, hyne]
    · simpa [hp] using hlift

/-! ### The bounded search takes a left part of the unbounded result -/

theorem take_take_append {α : Type} (k : Nat) (l l' : List α) :
    (l.take k ++ l').take k = (l ++ l').take k := by
  by_cases h : l.length ≤ k
  · rw [List.take_of_length_le h]
  · have hk : k ≤ l.length := Nat.le_of_not_le h
    have h2 : k ≤ (l.take k).length := by
      rw [List.length_take]; omega
    rw [List.take_append_of_le_length h2, List.take_take, Nat.min_self,
      List.take_append_of_le_length hk]

theorem attrLoop_bounded (attr attrValue : String) (count : Int)
    (hc : 1 ≤ count) (n : Node) (ats : List Attribute) :
    ∀ acc : List Node, acc.length < count.toNat →
      attrLoop attr attrValue count n ats acc =
        (acc ++ List.replicate
          (ats.countP fun a => decide (attrPairMatch attr attrValue a)) n).take
          count.toNat := by
  induction ats with
  | nil =>
    intro acc hacc
    simp only [attrLoop, List.countP_nil, List.replicate_zero, List.append_nil]
    rw [List.take_of_length_le (Nat.le_of_lt hacc)]
  | cons a rest ih =>
    intro acc hacc
    by_cases h : attrPairMatch attr attrValue a
    · simp only [attrLoop, if_pos h]
      have hcount :
          (a :: rest).countP (fun a => decide (attrPairMatch attr attrValue a)) =
            rest.countP (fun a => decide (attrPairMatch attr attrValue a)) + 1 := by
        rw [List.countP_cons]
        simp [h]
      rw [hcount]
      have hassoc : acc ++ List.replicate
          (rest.countP (fun a => decide (attrPairMatch attr attrValue a)) + 1) n =
          (acc ++ [n]) ++ List.replicate
            (rest.countP fun a => decide (attrPairMatch attr attrValue a)) n := by
        simp [List.append_assoc, List.replicate_succ]
      rw [hassoc]
      by_cases hbr : count ≤ ((acc ++ [n]).length : Int)
      · rw [if_pos ⟨by omega, hbr⟩]
        have hlen : (acc ++ [n]).length = count.toNat := by
          simp at hbr ⊢
          omega
        rw [List.take_append_of_le_length (Nat.le_of_eq hlen.symm)]
        rw [List.take_of_length_le (Nat.le_of_eq hlen)]
      · rw [if_neg (fun hand => hbr hand.2)]
        have hlt : (acc ++ [n]).length < count.toNat := by
          simp at hbr ⊢
          omega
        exact ih (acc ++ [n]) hlt
    · simp only [attrLoop, if_neg h]
      have hcount :
          (a :: rest).countP (fun a => decide (attrPairMatch attr attrValue a)) =
            rest.countP (fun a => decide (attrPairMatch attr attrValue a)) := by
        rw [List.countP_cons]
        simp [h]
      rw [hcount]
      exact ih acc hacc

mutual

theorem visit_bounded (tag attr attrValue : String) (count : Int)
    (hc : 1 ≤ count) (n : Node) :
    ∀ acc : List Node, acc.length < count.toNat →
      visit tag attr attrValue count n acc =
        (acc ++ specList tag attr attrValue (preorder n)).take count.toNat := by
  cases n with
  | mk i ty d ats cs =>
    intro acc hacc
    rw [visit]
    have hvc := visitChildren_bounded tag attr attrValue count hc cs
    by_cases h1 : ty = .elementNode ∧ (tag = "" ∨ d = tag)
    · by_cases h2 : attr = "" ∧ attrValue = ""
      · simp only [if_pos h1, if_pos h2]
        rw [hvc (acc ++ [Node.mk i ty d ats cs]) (by simp; omega)]
        simp [matchCount, h1, h2, List.append_assoc, List.replicate_succ]
      · simp only [if_pos h1, if_neg h2]
        rw [attrLoop_bounded attr attrValue count hc _ _ acc hacc]
        rw [hvc _ (by rw [List.length_take]; omega)]
        rw [take_take_append]
        simp [matchCount, h1, h2, List.append_assoc]
    · simp only [if_neg h1]
      rw [hvc acc (Nat.le_of_lt hacc)]
      simp [matchCount, h1]

theorem visitChildren_bounded (tag attr attrValue : String) (count : Int)
    (hc : 1 ≤ count) (cs : List Node) :
    ∀ acc : List Node, acc.length ≤ count.toNat →
      visitChildren tag attr attrValue count cs acc =
        (acc ++ specList tag attr attrValue (preorderList cs)).take
          count.toNat := by
  cases cs with
  | nil =>
    intro acc hacc
    simp only [visitChildren, preorderList_nil, specList_nil, List.append_nil]
    rw [List.take_of_length_le hacc]
  | cons c cs =>
    intro acc hacc
    rw [visitChildren]
    by_cases hg : (acc.length : Int) < count
    · rw [if_pos (Or.inr hg)]
      have hlt : acc.length < count.toNat := by omega
      rw [visit_bounded tag attr attrValue count hc c acc hlt]
      rw [visitChildren_bounded tag attr attrValue count hc cs _
        (by rw [List.length_take]; omega)]
      rw [take_take_append]
      simp [specList_append, List.append_assoc]
    · rw [if_neg (by omega)]
      have heq : acc.length = count.toNat := by omega
      rw [visitChildren_bounded tag attr attrValue count hc cs acc hacc]
      rw [List.take_append_of_le_length (Nat.le_of_eq heq.symm),
        List.take_append_of_le_length (Nat.le_of_eq heq.symm)]

end

/-- With a bounded count `1 ≤ k`, `GetHtmlNodes` computes the length-`k` left
part of the unbounded result. -/
theorem GetHtmlNodes_bounded (n : Node) (tag attr attrValue : String)
    (count : Int) (hc : 1 ≤ count) :
    GetHtmlNodes n tag attr attrValue count =
      (GetHtmlNodes n tag attr attrValue (-1)).take count.toNat := by
  rw [GetHtmlNodes_unbounded]
  unfold GetHtmlNodes
  rw [visit_bounded tag attr attrValue count hc n [] (by simp; omega)]
  simp

/-! ### Facts about ids, node content and detachment -/

@[simp] theorem ids_mk (i ty d ats cs) :
    ids (.mk i ty d ats cs) = i :: idsList cs := by
  simp [ids, idsList]

@[simp] theorem idsList_nil : idsList [] = [] := by simp [idsList]

@[simp] theorem idsList_cons (c cs) :
    idsList (c :: cs) = ids c ++ idsList cs := by
  simp [ids, idsList]

theorem ids_def (t : Node) : ids t = t.id :: idsList t.children := by
  cases t; simp

theorem mem_ids_of_mem_preorder {t : Node} {n : Node} (h : n ∈ preorder t) :
    n.id ∈ ids t :=
  List.mem_map_of_mem Node.id h

/-- The fields of one node that the search criteria consult, together with its
identity: everything about a node except its child list. -/
def contentOf (n : Node) : Nat × NodeType × String × List Attribute :=
  (n.id, n.type, n.data, n.attr)

/-- Contents of all nodes of a tree, in document order. -/
def contentListOf (t : Node) : List (Nat × NodeType × String × List Attribute) :=
  (preorder t).map contentOf

/-- Contents of all nodes of a forest, in document order. -/
def contentListOfList (cs : List Node) :
    List (Nat × NodeType × String × List Attribute) :=
  (preorderList cs).map contentOf

@[simp] theorem contentListOf_mk (i ty d ats cs) :
    contentListOf (.mk i ty d ats cs) =
      (i, ty, d, ats) :: contentListOfList cs := by
  simp [contentListOf, contentListOfList, contentOf]

@[simp] theorem contentListOfList_nil : contentListOfList [] = [] := by
  simp [contentListOfList]

@[simp] theorem contentListOfList_cons (c cs) :
    contentListOfList (c :: cs) = contentListOf c ++ contentListOfList cs := by
  simp [contentListOf, contentListOfList]

theorem ids_eq_map_fst (t : Node) :
    ids t = (contentListOf t).map Prod.fst := by
  rw [ids, contentListOf, List.map_map]
  exact List.map_congr_left fun n _ => rfl

theorem map_id_nodup_inj {l : List Node} (h : (l.map Node.id).Nodup)
    {a b : Node} (ha : a ∈ l) (hb : b ∈ l) (hid : a.id = b.id) : a = b := by
  induction l with
  | nil => cases ha
  | cons c l ih =>
    rw [List.map_cons, List.nodup_cons] at h
    rcases List.mem_cons.mp ha with rfl | ha' <;>
      rcases List.mem_cons.mp hb with rfl | hb'
    · rfl
    · exact absurd (hid ▸ List.mem_map_of_mem Node.id hb') h.1
    · exact absurd (hid ▸ List.mem_map_of_mem Node.id ha') h.1
    · exact ih h.2 ha' hb'

mutual

theorem removeById_isSome (j : Nat) (t : Node) :
    (∃ t', removeById j t = some t') ↔ j ∈ idsList t.children := by
  cases t with
  | mk i ty d ats cs =>
    rw [removeById]
    cases h : removeFromList j cs with
    | none =>
      simp only [h]
      constructor
      · rintro ⟨t', ht'⟩; cases ht'
      · intro hj
        exact absurd ((removeFromList_isSome j cs).mpr (by simpa using hj))
          (by simp [h])
    | some cs' =>
      simp only [h, Node.children_mk]
      constructor
      · intro _
        exact (removeFromList_isSome j cs).mp ⟨cs', h⟩
      · intro _
        exact ⟨_, rfl⟩

theorem removeFromList_isSome (j : Nat) (cs : List Node) :
    (∃ cs', removeFromList j cs = some cs') ↔ j ∈ idsList cs := by
  cases cs with
  | nil =>
    simp [removeFromList]
  | cons c cs =>
    rw [removeFromList]
    by_cases hc : c.id = j
    · simp only [if_pos hc, idsList_cons]
      constructor
      · intro _
        exact List.mem_append_left _ (hc ▸ (ids_def c ▸ List.mem_cons_self _ _))
      · intro _
        exact ⟨_, rfl⟩
    · rw [if_neg hc]
      cases h1 : removeById j c with
      | some c' =>
        simp only []
        constructor
        · intro _
          have := (removeById_isSome j c).mp ⟨c', h1⟩
          simp only [idsList_cons, List.mem_append]
          exact Or.inl (ids_def c ▸ List.mem_cons_of_mem _ this)
        · intro _
          exact ⟨_, rfl⟩
      | none =>
        cases h2 : removeFromList j cs with
        | some cs'' =>
          simp only []
          constructor
          · intro _
            have := (removeFromList_isSome j cs).mp ⟨cs'', h2⟩
            simp only [idsList_cons, List.mem_append]
            exact Or.inr this
          · intro _
            exact ⟨_, rfl⟩
        | none =>
          simp only []
          constructor
          · rintro ⟨cs', hcs'⟩; cases hcs'
          · intro hj
            rcases List.mem_append.mp (by simpa using hj) with hA | hB
            · rw [ids_def c] at hA
              rcases List.mem_cons.mp hA with h' | h'
              · exact (hc h'.symm).elim
              · exact absurd ((removeById_isSome j c).mpr h') (by simp [h1])
            · exact absurd ((removeFromList_isSome j cs).mpr hB) (by simp [h2])

end

mutual

theorem removeById_content {j : Nat} {t t' : Node}
    (h : removeById j t = some t') :
    List.Sublist (contentListOf t') (contentListOf t) ∧ t'.id = t.id := by
  cases t with
  | mk i ty d ats cs =>
    rw [removeById] at h
    cases heq : removeFromList j cs with
    | none => rw [heq] at h; cases h
    | some cs' =>
      rw [heq] at h
      injection h with h
      subst h
      refine ⟨?_, rfl⟩
      simp only [contentListOf_mk]
      exact (removeFromList_content heq).cons₂ _

theorem removeFromList_content {j : Nat} {cs cs' : List Node}
    (h : removeFromList j cs = some cs') :
    List.Sublist (contentListOfList cs') (contentListOfList cs) := by
  cases cs with
  | nil => cases h
  | cons c cs =>
    rw [removeFromList] at h
    by_cases hc : c.id = j
    · rw [if_pos hc] at h
      injection h with h
      subst h
      simp only [contentListOfList_cons]
      simp
    · rw [if_neg hc] at h
      cases h1 : removeById j c with
      | some c'' =>
        rw [h1] at h
        injection h with h
        subst h
        simp only [contentListOfList_cons]
        exact (removeById_content h1).1.append (List.Sublist.refl _)
      | none =>
        rw [h1] at h
        cases h2 : removeFromList j cs with
        | some cs'' =>
          rw [h2] at h
          injection h with h
          subst h
          simp only [contentListOfList_cons]
          exact (List.Sublist.refl _).append (removeFromList_content h2)
        | none => rw [h2] at h; cases h

end

theorem ids_sublist_of_content {t t' : Node}
    (h : List.Sublist (contentListOf t') (contentListOf t)) : List.Sublist (ids t') (ids t) := by
  rw [ids_eq_map_fst, ids_eq_map_fst]
  exact h.map Prod.fst

@[simp] theorem idxOf_cons (a : Nat) (l : List Nat) (i : Nat) :
    idxOf (a :: l) i = if a = i then 0 else idxOf l i + 1 := rfl

theorem self_mem_preorder (t : Node) : t ∈ preorder t := by
  cases t
  simp

mutual

theorem removeById_not_mem {j : Nat} {t t' : Node} (hnd : (ids t).Nodup)
    (h : removeById j t = some t') : j ∉ ids t' := by
  cases t with
  | mk i ty d ats cs =>
    rw [removeById] at h
    cases heq : removeFromList j cs with
    | none => rw [heq] at h; cases h
    | some cs' =>
      rw [heq] at h
      injection h with h
      subst h
      have hj : j ∈ idsList cs := (removeFromList_isSome j cs).mp ⟨cs', heq⟩
      rw [ids_mk, List.nodup_cons] at hnd
      rw [ids_mk]
      intro hmem
      rcases List.mem_cons.mp hmem with h' | h'
      · exact hnd.1 (h' ▸ hj)
      · exact removeFromList_not_mem hnd.2 heq h'

theorem removeFromList_not_mem {j : Nat} {cs cs' : List Node}
    (hnd : (idsList cs).Nodup) (h : removeFromList j cs = some cs') :
    j ∉ idsList cs' := by
  cases cs with
  | nil => cases h
  | cons c cs =>
    rw [removeFromList] at h
    rw [idsList_cons, List.nodup_append] at hnd
    obtain ⟨hndA, hndB, hdisj⟩ := hnd
    by_cases hc : c.id = j
    · rw [if_pos hc] at h
      injection h with h
      subst h
      intro hj
      exact hdisj (hc ▸ (ids_def c ▸ List.mem_cons_self _ _)) hj
    · rw [if_neg hc] at h
      cases h1 : removeById j c with
      | some c'' =>
        rw [h1] at h
        injection h with h
        subst h
        rw [idsList_cons, List.mem_append]
        rintro (hA | hB)
        · exact removeById_not_mem hndA h1 hA
        · have hjc : j ∈ idsList c.children :=
            (removeById_isSome j c).mp ⟨c'', h1⟩
          exact hdisj (ids_def c ▸ List.mem_cons_of_mem _ hjc) hB
      | none =>
        rw [h1] at h
        cases h2 : removeFromList j cs with
        | some cs'' =>
          rw [h2] at h
          injection h with h
          subst h
          rw [idsList_cons, List.mem_append]
          rintro (hA | hB)
          · rw [ids_def c] at hA
            rcases List.mem_cons.mp hA with h' | h'
            · exact hc h'.symm
            · exact absurd ((removeById_isSome j c).mpr h') (by simp [h1])
          · exact removeFromList_not_mem hndB h2 hB
        | none => rw [h2] at h; cases h

end

mutual

theorem removeById_idx {j : Nat} {t t' : Node} (hnd : (ids t).Nodup)
    (h : removeById j t = some t') :
    ∀ i', i' ∈ ids t → i' ∉ ids t' →
      idxOf (ids t) j ≤ idxOf (ids t) i' := by
  cases t with
  | mk i ty d ats cs =>
    rw [removeById] at h
    cases heq : removeFromList j cs with
    | none => rw [heq] at h; cases h
    | some cs' =>
      rw [heq] at h
      injection h with h
      subst h
      intro i' hi' hni'
      rw [ids_mk] at hi' ⊢
      rw [ids_mk] at hni'
      rw [ids_mk, List.nodup_cons] at hnd
      have hj : j ∈ idsList cs := (removeFromList_isSome j cs).mp ⟨cs', heq⟩
      have hji : ¬ i = j := fun e => hnd.1 (e ▸ hj)
      have hi'ne : ¬ i = i' := fun e => hni' (e ▸ List.mem_cons_self _ _)
      have hi'mem : i' ∈ idsList cs := by
        rcases List.mem_cons.mp hi' with h' | h'
        · exact (hi'ne h'.symm).elim
        · exact h'
      have hi'nmem : i' ∉ idsList cs' := fun hx =>
        hni' (List.mem_cons_of_mem _ hx)
      simp only [idxOf_cons, if_neg hji, if_neg hi'ne]
      have := removeFromList_idx hnd.2 heq i' hi'mem hi'nmem
      omega

theorem removeFromList_idx {j : Nat} {cs cs' : List Node}
    (hnd : (idsList cs).Nodup) (h : removeFromList j cs = some cs') :
    ∀ i', i' ∈ idsList cs → i' ∉ idsList cs' →
      idxOf (idsList cs) j ≤ idxOf (idsList cs) i' := by
  cases cs with
  | nil => cases h
  | cons c cs =>
    rw [removeFromList] at h
    intro i' hi' hni'
    rw [idsList_cons] at hnd hi' ⊢
    obtain ⟨hndA, hndB, hdisj⟩ := List.nodup_append.mp hnd
    by_cases hc : c.id = j
    · rw [if_pos hc] at h
      injection h with h
      subst h
      have hz : idxOf (ids c ++ idsList cs) j = 0 := by
        rw [ids_def c, List.cons_append]
        simp [hc]
      rw [hz]
      exact Nat.zero_le _
    · rw [if_neg hc] at h
      cases h1 : removeById j c with
      | some c'' =>
        rw [h1] at h
        injection h with h
        subst h
        rw [idsList_cons] at hni'
        have hjA : j ∈ ids c :=
          ids_def c ▸ List.mem_cons_of_mem _ ((removeById_isSome j c).mp ⟨c'', h1⟩)
        have hi'A : i' ∈ ids c := by
          rcases List.mem_append.mp hi' with h' | h'
          · exact h'
          · exact absurd (List.mem_append_right _ h') hni'
        have hi'nA : i' ∉ ids c'' := fun hx =>
          hni' (List.mem_append_left _ hx)
        rw [idxOf_append_left _ hjA, idxOf_append_left _ hi'A]
        exact removeById_idx hndA h1 i' hi'A hi'nA
      | none =>
        rw [h1] at h
        cases h2 : removeFromList j cs with
        | some cs'' =>
          rw [h2] at h
          injection h with h
          subst h
          rw [idsList_cons] at hni'
          have hjB : j ∈ idsList cs := (removeFromList_isSome j cs).mp ⟨cs'', h2⟩
          have hjnA : j ∉ ids c := by
            rw [ids_def c]
            intro hx
            rcases List.mem_cons.mp hx with h' | h'
            · exact hc h'.symm
            · exact absurd ((removeById_isSome j c).mpr h') (by simp [h1])
          have hi'nA : i' ∉ ids c := fun hx =>
            hni' (List.mem_append_left _ hx)
          have hi'B : i' ∈ idsList cs := by
            rcases List.mem_append.mp hi' with h' | h'
            · exact (hi'nA h').elim
            · exact h'
          have hi'nB : i' ∉ idsList cs'' := fun hx =>
            hni' (List.mem_append_right _ hx)
          rw [idxOf_append_right _ hjnA, idxOf_append_right _ hi'nA]
          have := removeFromList_idx hndB h2 i' hi'B hi'nB
          omega
        | none => rw [h2] at h; cases h

end

theorem idxOf_mono_of_sublist {L' L : List Nat} (hs : List.Sublist L' L)
    (hnd : L.Nodup) :
    ∀ a b, a ∈ L' → b ∈ L' → idxOf L' a ≤ idxOf L' b →
      idxOf L a ≤ idxOf L b := by
  induction hs with
  | slnil =>
    intro a b ha
    cases ha
  | cons x hs ih =>
    intro a b ha hb hab
    rw [List.nodup_cons] at hnd
    have haM := hs.subset ha
    have hbM := hs.subset hb
    have hax : ¬ x = a := fun e => hnd.1 (e ▸ haM)
    have hbx : ¬ x = b := fun e => hnd.1 (e ▸ hbM)
    simp only [idxOf_cons, if_neg hax, if_neg hbx]
    have := ih hnd.2 a b ha hb hab
    omega
  | cons₂ x hs ih =>
    intro a b ha hb hab
    rw [List.nodup_cons] at hnd
    by_cases hax : x = a
    · simp [idxOf_cons, hax]
    · rcases List.mem_cons.mp ha with h' | haL
      · exact (hax h'.symm).elim
      · by_cases hbx : x = b
        · rw [idxOf_cons, if_neg hax, idxOf_cons, if_pos hbx] at hab
          omega
        · rcases List.mem_cons.mp hb with h'' | hbL
          · exact (hbx h''.symm).elim
          · rw [idxOf_cons, if_neg hax, idxOf_cons, if_neg hbx] at hab
            simp only [idxOf_cons, if_neg hax, if_neg hbx]
            have := ih hnd.2 a b haL hbL (by omega)
            omega

/-- Running the reverse-order detach loop from a partially pruned tree: when
every pending target is still attached, is not the root, and the pending ids
are strictly decreasing in document order, every step succeeds and all the
targets end up outside the final tree. -/
theorem detachAll_spec (t : Node) (ht : (ids t).Nodup) :
    ∀ (rws : List Node) (tc : Node),
      List.Sublist (contentListOf tc) (contentListOf t) →
      tc.id = t.id →
      (∀ x ∈ rws, x.id ∈ ids tc ∧ x.id ≠ t.id) →
      (rws.map Node.id).Pairwise
        (fun a b => idxOf (ids t) b < idxOf (ids t) a) →
      ∃ tf, detachAll rws tc = some tf ∧
        List.Sublist (contentListOf tf) (contentListOf tc) ∧
        tf.id = tc.id ∧ ∀ x ∈ rws, x.id ∉ ids tf := by
  intro rws
  induction rws with
  | nil =>
    intro tc hsub hid hmem hord
    exact ⟨tc, rfl, List.Sublist.refl _, rfl, by simp⟩
  | cons x rest ih =>
    intro tc hsub hid hmem hord
    obtain ⟨hxmem, hxne⟩ := hmem x (List.mem_cons_self _ _)
    have htc_sub : List.Sublist (ids tc) (ids t) := ids_sublist_of_content hsub
    have hndc : (ids tc).Nodup := List.Nodup.sublist htc_sub ht
    have hxch : x.id ∈ idsList tc.children := by
      rw [ids_def tc] at hxmem
      rcases List.mem_cons.mp hxmem with h' | h'
      · exact absurd (h' ▸ hid) hxne
      · exact h'
    obtain ⟨t2, ht2⟩ := (removeById_isSome x.id tc).mpr hxch
    obtain ⟨hcsub, hcid⟩ := removeById_content ht2
    have hids2 : List.Sublist (ids t2) (ids tc) := ids_sublist_of_content hcsub
    have hxout : x.id ∉ ids t2 := removeById_not_mem hndc ht2
    rw [List.map_cons, List.pairwise_cons] at hord
    have hpend : ∀ y ∈ rest, y.id ∈ ids t2 ∧ y.id ≠ t.id := by
      intro y hy
      obtain ⟨hymem, hyne⟩ := hmem y (List.mem_cons_of_mem _ hy)
      refine ⟨?_, hyne⟩
      by_contra hnot
      have hle := removeById_idx hndc ht2 y.id hymem hnot
      have hle2 := idxOf_mono_of_sublist htc_sub ht x.id y.id hxmem hymem hle
      have hstrict := hord.1 y.id (List.mem_map_of_mem Node.id hy)
      omega
    obtain ⟨tf, htf, hfsub, hfid, hfout⟩ :=
      ih t2 (hcsub.trans hsub) (hcid.trans hid) hpend hord.2
    refine ⟨tf, ?_, hfsub.trans hcsub, hfid.trans hcid, ?_⟩
    · rw [detachAll, ht2]
      exact htf
    · intro y hy
      rcases List.mem_cons.mp hy with rfl | hy'
      · intro hxin
        exact hxout ((ids_sublist_of_content hfsub).subset hxin)
      · exact hfout y hy'

/-- Success and effect of `RemoveHtmlNodes` with unbounded count, under the
parser invariant plus the two preconditions forced by the detach loop: the
root is not matched and no node is matched through two attribute pairs. -/
theorem RemoveHtmlNodes_success (t : Node) (tag attr attrValue : String)
    (h1 : (ids t).Nodup) (h2 : matchCount tag attr attrValue t = 0)
    (h3 : ∀ m ∈ preorder t, matchCount tag attr attrValue m ≤ 1) :
    ∃ tf, RemoveHtmlNodes t tag attr attrValue (-1) = some tf ∧
      List.Sublist (contentListOf tf) (contentListOf t) ∧ tf.id = t.id ∧
      ∀ m ∈ preorder t, matchCount tag attr attrValue m ≠ 0 →
        m.id ∉ ids tf := by
  have hws : GetHtmlNodes t tag attr attrValue (-1) =
      (preorder t).filter
        (fun m => decide (0 < matchCount tag attr attrValue m)) := by
    rw [GetHtmlNodes_unbounded]
    exact specList_eq_filter tag attr attrValue (preorder t) h3
  have hmem : ∀ x ∈ ((preorder t).filter
      (fun m => decide (0 < matchCount tag attr attrValue m))).reverse,
      x.id ∈ ids t ∧ x.id ≠ t.id := by
    intro x hx
    rw [List.mem_reverse] at hx
    obtain ⟨hxp, hpx⟩ := List.mem_filter.mp hx
    refine ⟨mem_ids_of_mem_preorder hxp, ?_⟩
    intro he
    have hteq : x = t := map_id_nodup_inj h1 hxp (self_mem_preorder t) he
    rw [hteq] at hpx
    simp only [decide_eq_true_eq] at hpx
    omega
  have hord : ((((preorder t).filter
      (fun m => decide (0 < matchCount tag attr attrValue m))).reverse).map
        Node.id).Pairwise
      (fun a b => idxOf (ids t) b < idxOf (ids t) a) := by
    rw [List.map_reverse, List.pairwise_reverse, List.pairwise_map]
    exact filter_pairwise_idxOf _ (preorder t) h1
  obtain ⟨tf, hdet, hsub, hid, hout⟩ :=
    detachAll_spec t h1 _ t (List.Sublist.refl _) rfl hmem hord
  refine ⟨tf, ?_, hsub, hid, ?_⟩
  · rw [RemoveHtmlNodes, hws]
    exact hdet
  · intro m hm hmc
    apply hout
    rw [List.mem_reverse, List.mem_filter]
    refine ⟨hm, ?_⟩
    simp only [decide_eq_true_eq]
    omega

/-- After a successful unbounded removal no node of the remaining tree
matches: node content is preserved by detachment, every matched content is
gone, and `matchCount` only reads content. -/
theorem search_after_remove (t tf : Node) (tag attr attrValue : String)
    (hsub : List.Sublist (contentListOf tf) (contentListOf t))
    (hout : ∀ m ∈ preorder t, matchCount tag attr attrValue m ≠ 0 →
      m.id ∉ ids tf) :
    GetHtmlNodes tf tag attr attrValue (-1) = [] := by
  rw [GetHtmlNodes_unbounded]
  apply specList_eq_nil
  intro m' hm'
  by_contra hmc
  have hc' : contentOf m' ∈ contentListOf t :=
    hsub.subset (List.mem_map_of_mem contentOf hm')
  obtain ⟨n, hn, hceq⟩ := List.mem_map.mp hc'
  rw [contentOf, contentOf, Prod.mk.injEq, Prod.mk.injEq, Prod.mk.injEq] at hceq
  obtain ⟨e1, e2, e3, e4⟩ := hceq
  have hmc_eq : matchCount tag attr attrValue n =
      matchCount tag attr attrValue m' := by
    rw [matchCount, matchCount, e2, e3, e4]
  have hnid : n.id ∉ ids tf := hout n hn (by omega)
  exact hnid (e1 ▸ mem_ids_of_mem_preorder hm')

/-- A node satisfies the search criteria: it is an element node passing the
tag filter, and either both attribute criteria are empty or some attribute
pair passes the attribute filter. -/
def matchesCriteria (tag attr attrValue : String) (n : Node) : Prop :=
  (n.type = .elementNode ∧ (tag = "" ∨ n.data = tag)) ∧
    ((attr = "" ∧ attrValue = "") ∨ ∃ a ∈ n.attr, attrPairMatch attr attrValue a)

theorem matchCount_pos_iff {tag attr attrValue : String} {n : Node} :
    0 < matchCount tag attr attrValue n ↔
      matchesCriteria tag attr attrValue n := by
  rw [matchCount, matchesCriteria]
  by_cases h1 : n.type = .elementNode ∧ (tag = "" ∨ n.data = tag)
  · rw [if_pos h1]
    by_cases h2 : attr = "" ∧ attrValue = ""
    · simp [h1, h2]
    · rw [if_neg h2]
      rw [List.countP_pos_iff]
      simp [h1, h2]
  · rw [if_neg h1]
    simp [h1]

/-! ### Example trees used for witnesses and counterexamples -/

/-- `<p id="a">`, childless. -/
def exP1 : Node := .mk 1 .elementNode "p" [⟨"id", "a"⟩] []

/-- `<p id="b">`, childless. -/
def exP2 : Node := .mk 2 .elementNode "p" [⟨"id", "b"⟩] []

/-- A text node between the two paragraphs. -/
def exText : Node := .mk 3 .textNode "x" [] []

/-- `<div><p id="a"></p>x<p id="b"></p></div>`. -/
def exRoot : Node := .mk 0 .elementNode "div" [] [exP1, exText, exP2]

/-- A paragraph with two identical `class="x"` attribute pairs. -/
def exDupAttr : Node := .mk 0 .elementNode "p" [⟨"class", "x"⟩, ⟨"class", "x"⟩] []

/-- A childless, attribute-less `<span>`. -/
def exSpan : Node := .mk 0 .elementNode "span" [] []

/-- `<p id="a" id="a">`: matched twice through its duplicate pairs. -/
def exRemChild : Node := .mk 1 .elementNode "p" [⟨"id", "a"⟩, ⟨"id", "a"⟩] []

/-- `<div>` whose only child is matched through two attribute pairs. -/
def exRemRoot : Node := .mk 0 .elementNode "div" [] [exRemChild]

/-- Inner `<p class="x">`: a matched descendant of a matched ancestor. -/
def exDeep2 : Node := .mk 2 .elementNode "p" [⟨"class", "x"⟩] []

/-- Outer `<p class="x">` containing `exDeep2`. -/
def exDeep1 : Node := .mk 1 .elementNode "p" [⟨"class", "x"⟩] [exDeep2]

/-- `<div><p class="x"><p class="x"></p></p></div>`. -/
def exDeepRoot : Node := .mk 0 .elementNode "div" [] [exDeep1]

/-! ### Claim theorems -/

/-- C1, counterexample: on a node carrying two attribute pairs that both
satisfy the attribute filter, the unbounded search appends the node twice —
not at most once as claimed. -/
theorem c1_counterexample :
    GetHtmlNodes exDupAttr "" "class" "x" (-1) = [exDupAttr, exDupAttr] ∧
      (GetHtmlNodes exDupAttr "" "class" "x" (-1)).length = 2 :=
  ⟨rfl, rfl⟩

/-- C1, amended: with unbounded count, `GetHtmlNodes` appends each element
node passing the tag filter once per attribute pair satisfying the attribute
filter (`matchCount`; exactly once when both attribute criteria are empty),
so a node whose attributes contain several satisfying pairs occurs several
times in the result, in pre-order document order. -/
theorem c1_amended_multiplicity (t : Node) (tag attr attrValue : String) :
    GetHtmlNodes t tag attr attrValue (-1) =
      (preorder t).flatMap
        (fun m => List.replicate (matchCount tag attr attrValue m) m) := by
  rw [GetHtmlNodes_unbounded]
  rfl

/-- C2: with unbounded count, under the parser invariant that ids are
distinct, the search result's elements are exactly the element nodes of the
tree satisfying the tag and attribute criteria (non-element nodes never
match, since `matchesCriteria` requires `elementNode`), and the result is
listed in pre-order depth-first document order: positions of its entries in
the pre-order id list never decrease. -/
theorem c2_membership_and_order (t : Node) (tag attr attrValue : String)
    (h : (ids t).Nodup) :
    (∀ x, x ∈ GetHtmlNodes t tag attr attrValue (-1) ↔
      x ∈ preorder t ∧ matchesCriteria tag attr attrValue x) ∧
    (GetHtmlNodes t tag attr attrValue (-1)).Pairwise
      (fun x y => idxOf (ids t) x.id ≤ idxOf (ids t) y.id) := by
  constructor
  · intro x
    rw [GetHtmlNodes_unbounded]
    rw [mem_specList, matchCount_pos_iff]
  · rw [GetHtmlNodes_unbounded]
    exact specList_pairwise_idxOf tag attr attrValue (preorder t) h

/-- C2, witness at `exRoot` searching for tag `p`. -/
theorem c2_witness :
    (ids exRoot).Nodup ∧
      (exP1 ∈ GetHtmlNodes exRoot "p" "" "" (-1) ↔
        exP1 ∈ preorder exRoot ∧ matchesCriteria "p" "" "" exP1) ∧
      (GetHtmlNodes exRoot "p" "" "" (-1)).Pairwise
        (fun x y => idxOf (ids exRoot) x.id ≤ idxOf (ids exRoot) y.id) :=
  ⟨by decide, (c2_membership_and_order exRoot "p" "" "" (by decide)).1 exP1,
    (c2_membership_and_order exRoot "p" "" "" (by decide)).2⟩

/-- C3: for a bounded count `k ≥ 1`, `GetHtmlNodes` returns exactly the
length-`min(k, N)` initial part of the unbounded result (`N` its length). -/
theorem c3_bounded_takes_initial_part (t : Node) (tag attr attrValue : String)
    (k : Int) (hk : 1 ≤ k) :
    GetHtmlNodes t tag attr attrValue k =
      (GetHtmlNodes t tag attr attrValue (-1)).take k.toNat ∧
    (GetHtmlNodes t tag attr attrValue k).length =
      min k.toNat (GetHtmlNodes t tag attr attrValue (-1)).length := by
  have h := GetHtmlNodes_bounded t tag attr attrValue k hk
  exact ⟨h, by rw [h, List.length_take]⟩

/-- C3, witness at `exRoot` with `k = 1`. -/
theorem c3_witness :
    (1 : Int) ≤ 1 ∧
      GetHtmlNodes exRoot "p" "" "" 1 =
        (GetHtmlNodes exRoot "p" "" "" (-1)).take (1 : Int).toNat :=
  ⟨by decide, (c3_bounded_takes_initial_part exRoot "p" "" "" 1 (by decide)).1⟩

/-- C4, counterexample: the only child is matched through two identical
attribute pairs, so the worklist lists it twice; the second detach
dereferences its now-nil parent and the removal panics (`none`) instead of
producing a mutated tree whose search is empty. -/
theorem c4_counterexample :
    GetHtmlNodes exRemRoot "p" "id" "a" (-1) = [exRemChild, exRemChild] ∧
      RemoveHtmlNodes exRemRoot "p" "id" "a" (-1) = none :=
  ⟨rfl, rfl⟩

/-- C4, amended: under the parser invariant, and provided the detach loop can
run to completion — the root does not satisfy the criteria and no node is
matched through more than one attribute pair — `RemoveHtmlNodes` with
unbounded count succeeds and the subsequent unbounded search on the mutated
tree yields the empty sequence. -/
theorem c4_amended_remove_then_search (t : Node) (tag attrK attrValue : String)
    (h1 : (ids t).Nodup) (h2 : matchCount tag attrK attrValue t = 0)
    (h3 : ∀ m ∈ preorder t, matchCount tag attrK attrValue m ≤ 1) :
    ∃ tf, RemoveHtmlNodes t tag attrK attrValue (-1) = some tf ∧
      GetHtmlNodes tf tag attrK attrValue (-1) = [] := by
  obtain ⟨tf, hdet, hsub, hid, hout⟩ :=
    RemoveHtmlNodes_success t tag attrK attrValue h1 h2 h3
  exact ⟨tf, hdet, search_after_remove t tf tag attrK attrValue hsub hout⟩

/-- C4, witness: removing `p[id=a]` from `exRoot`. -/
theorem c4_witness :
    (ids exRoot).Nodup ∧ matchCount "p" "id" "a" exRoot = 0 ∧
      (∀ m ∈ preorder exRoot, matchCount "p" "id" "a" m ≤ 1) ∧
      ∃ tf, RemoveHtmlNodes exRoot "p" "id" "a" (-1) = some tf ∧
        GetHtmlNodes tf "p" "id" "a" (-1) = [] :=
  ⟨by decide, by decide, by decide,
    c4_amended_remove_then_search exRoot "p" "id" "a" (by decide) (by decide)
      (by decide)⟩

/-- C5: `RemoveHtmlNodes` detaches its worklist in reverse document order
(`detachAll` over the reversed worklist, per `htmlutil.go` line 149); under
the parser invariant and the detach preconditions — covering in particular a
matched ancestor with a matched descendant — the removal succeeds and the
remaining tree is consistent: same root id, all ids distinct, and no id that
was not already present. -/
theorem c5_reverse_removal_consistent (t : Node) (tag attrK attrValue : String)
    (h1 : (ids t).Nodup) (h2 : matchCount tag attrK attrValue t = 0)
    (h3 : ∀ m ∈ preorder t, matchCount tag attrK attrValue m ≤ 1) :
    ∃ tf, RemoveHtmlNodes t tag attrK attrValue (-1) = some tf ∧
      tf.id = t.id ∧ (ids tf).Nodup ∧ ∀ i ∈ ids tf, i ∈ ids t := by
  obtain ⟨tf, hdet, hsub, hid, -⟩ :=
    RemoveHtmlNodes_success t tag attrK attrValue h1 h2 h3
  refine ⟨tf, hdet, hid, ?_, ?_⟩
  · exact List.Nodup.sublist (ids_sublist_of_content hsub) h1
  · exact fun i hi => (ids_sublist_of_content hsub).subset hi

/-- C5, witness at `exDeepRoot`, where the matched `p` ancestor contains a
matched `p` descendant. -/
theorem c5_witness :
    (ids exDeepRoot).Nodup ∧ matchCount "p" "" "" exDeepRoot = 0 ∧
      (∀ m ∈ preorder exDeepRoot, matchCount "p" "" "" m ≤ 1) ∧
      (0 < matchCount "p" "" "" exDeep1 ∧ 0 < matchCount "p" "" "" exDeep2 ∧
        exDeep2.id ∈ ids exDeep1) ∧
      ∃ tf, RemoveHtmlNodes exDeepRoot "p" "" "" (-1) = some tf ∧
        tf.id = exDeepRoot.id ∧ (ids tf).Nodup ∧ ∀ i ∈ ids tf, i ∈ ids exDeepRoot :=
  ⟨by decide, by decide, by decide, by decide,
    c5_reverse_removal_consistent exDeepRoot "p" "" "" (by decide) (by decide)
      (by decide)⟩

/-- C6: evaluation at the failing input.  On a matched node with two adjacent
identical `class="x"` pairs, `RemoveHtmlAttrs` removes the first pair, the
recursive rescan removes the second, and the stale outer `range` loop (still
iterating the original length-2 slice header) re-reads the shared backing
array at index 1, sees a matching value, and evaluates `Attr[2:]` on the
now-empty slice — a runtime panic, where the claim promises removal of all
adjacent duplicates and idempotence. -/
theorem c6_code_bug_eval :
    RemoveHtmlAttrs exDupAttr "" "class" "x" (-1) 10 = .panicked ∧
      processNode "class" "x" 10 (nodeSlice exDupAttr) = .panicked := by
  constructor
  · simp +decide [RemoveHtmlAttrs, processWorklist, processNode, procLoop,
      sliceRemoveAt, nodeSlice]
  · simp +decide [processNode, procLoop, sliceRemoveAt, nodeSlice]

/-- C7: when both attribute criteria are empty, the unbounded search is the
pre-order list of element nodes passing the tag filter, with no reference to
any attribute list; in particular the childless, attribute-less `span`
element is still returned when searching for tag `span`. -/
theorem c7_empty_attr_criteria :
    (∀ (t : Node) (tag : String),
      GetHtmlNodes t tag "" "" (-1) =
        (preorder t).filter
          (fun n => decide (n.type = .elementNode ∧ (tag = "" ∨ n.data = tag)))) ∧
      GetHtmlNodes exSpan "span" "" "" (-1) = [exSpan] := by
  constructor
  · intro t tag
    rw [GetHtmlNodes_unbounded]
    have hb : ∀ m ∈ preorder t, matchCount tag "" "" m ≤ 1 := by
      intro m _
      rw [matchCount]
      split
      · simp
      · simp
    rw [specList_eq_filter tag "" "" (preorder t) hb]
    apply List.filter_congr
    intro m _
    rw [matchCount]
    by_cases hc : m.type = .elementNode ∧ (tag = "" ∨ m.data = tag)
    · simp [hc]
    · simp [hc]
  · rfl

/-- C8: `GetFirstHtmlNode` is the head of the count-1 search result when some
node matches, and the zero-value placeholder node (never a nil pointer)
otherwise. -/
theorem c8_first_or_placeholder (t : Node) (tag attrK attrValue : String) :
    (GetHtmlNodes t tag attrK attrValue 1 ≠ [] →
      GetFirstHtmlNode t tag attrK attrValue =
        (GetHtmlNodes t tag attrK attrValue 1).headD emptyNode) ∧
    (GetHtmlNodes t tag attrK attrValue 1 = [] →
      GetFirstHtmlNode t tag attrK attrValue = emptyNode) := by
  constructor
  · intro hne
    rw [GetFirstHtmlNode]
    cases h : GetHtmlNodes t tag attrK attrValue 1 with
    | nil => exact absurd h hne
    | cons a l => simp [h]
  · intro he
    rw [GetFirstHtmlNode, he]
    simp

/-- C8, witness at `exRoot`: the head `p[id=a]` is returned. -/
theorem c8_witness :
    GetHtmlNodes exRoot "p" "" "" 1 ≠ [] ∧
      GetFirstHtmlNode exRoot "p" "" "" =
        (GetHtmlNodes exRoot "p" "" "" 1).headD emptyNode :=
  ⟨by simp [show GetHtmlNodes exRoot "p" "" "" 1 = [exP1] from rfl],
    (c8_first_or_placeholder exRoot "p" "" "").1
      (by simp [show GetHtmlNodes exRoot "p" "" "" 1 = [exP1] from rfl])⟩

/-- C9: in the error-reporting variant, `ErrNodeNotFound` is returned exactly
when the search found zero nodes, and with at least one match the error
result is nil. -/
theorem c9_not_found_iff (t : Node) (tag attrK attrValue : String)
    (count : Int) :
    ((GetHtmlNodesE t tag attrK attrValue count).2 =
        some .errNodeNotFound ↔
      (GetHtmlNodesE t tag attrK attrValue count).1 = []) ∧
    ((GetHtmlNodesE t tag attrK attrValue count).1 ≠ [] →
      (GetHtmlNodesE t tag attrK attrValue count).2 = none) := by
  rw [GetHtmlNodesE]
  by_cases h : (visitE tag attrK attrValue count t []).length = 0
  · have he : visitE tag attrK attrValue count t [] = [] :=
      List.length_eq_zero.mp h
    simp [h, he]
  · have hne : visitE tag attrK attrValue count t [] ≠ [] := by
      intro e
      exact h (by rw [e]; rfl)
    simp [h, hne]

/-- C9, witness at `exRoot`: two `p` nodes are found and the error is nil. -/
theorem c9_witness :
    (GetHtmlNodesE exRoot "p" "" "" (-1)).1 ≠ [] ∧
      (GetHtmlNodesE exRoot "p" "" "" (-1)).2 = none :=
  ⟨by simp [show (GetHtmlNodesE exRoot "p" "" "" (-1)).1 = [exP1, exP2] from rfl],
    (c9_not_found_iff exRoot "p" "" "" (-1)).2
      (by simp [show (GetHtmlNodesE exRoot "p" "" "" (-1)).1 = [exP1, exP2] from rfl])⟩

/-- The contribution of one list element is a sublist of the flattened map. -/
theorem sublist_flatMap_of_mem {α β : Type} {l : List α} {a : α}
    (f : α → List β) (h : a ∈ l) : List.Sublist (f a) (l.flatMap f) := by
  induction l with
  | nil => cases h
  | cons c l ih =>
    rw [List.flatMap_cons]
    rcases List.mem_cons.mp h with rfl | h'
    · exact List.sublist_append_left _ _
    · exact (ih h').trans (List.sublist_append_right _ _)

/-- C10: the detach loop is safe — no nil `Parent` dereference, i.e. the
removal returns a tree rather than panicking — under the precondition that
every worklist node has a non-nil parent: the root is not in the worklist and
no node occurs in it twice (plus the parser invariant of distinct ids). -/
theorem c10_detach_safe (t : Node) (tag attrK attrValue : String)
    (h1 : (ids t).Nodup)
    (h2 : t.id ∉ (GetHtmlNodes t tag attrK attrValue (-1)).map Node.id)
    (h3 : ((GetHtmlNodes t tag attrK attrValue (-1)).map Node.id).Nodup) :
    (RemoveHtmlNodes t tag attrK attrValue (-1)).isSome := by
  have hroot : matchCount tag attrK attrValue t = 0 := by
    by_contra hmc
    apply h2
    apply List.mem_map_of_mem Node.id
    rw [GetHtmlNodes_unbounded]
    exact mem_specList.mpr ⟨self_mem_preorder t, Nat.pos_of_ne_zero hmc⟩
  have hmc1 : ∀ m ∈ preorder t, matchCount tag attrK attrValue m ≤ 1 := by
    intro m hm
    by_contra hgt
    push_neg at hgt
    have hsubl : List.Sublist
        (List.replicate (matchCount tag attrK attrValue m) m)
        (GetHtmlNodes t tag attrK attrValue (-1)) := by
      rw [GetHtmlNodes_unbounded, specList]
      exact sublist_flatMap_of_mem
        (fun m => List.replicate (matchCount tag attrK attrValue m) m) hm
    have hmap : List.Sublist
        (List.replicate (matchCount tag attrK attrValue m) m.id)
        ((GetHtmlNodes t tag attrK attrValue (-1)).map Node.id) := by
      have := hsubl.map Node.id
      rw [List.map_replicate] at this
      exact this
    have := List.Nodup.sublist hmap h3
    rw [List.nodup_replicate] at this
    omega
  obtain ⟨tf, hdet, -, -, -⟩ :=
    RemoveHtmlNodes_success t tag attrK attrValue h1 hroot hmc1
  rw [hdet]
  rfl

/-- C10, witness at `exRoot` removing `p[id=a]`. -/
theorem c10_witness :
    (ids exRoot).Nodup ∧
      exRoot.id ∉ (GetHtmlNodes exRoot "p" "id" "a" (-1)).map Node.id ∧
      ((GetHtmlNodes exRoot "p" "id" "a" (-1)).map Node.id).Nodup ∧
      (RemoveHtmlNodes exRoot "p" "id" "a" (-1)).isSome :=
  ⟨by decide, by decide, by decide,
    c10_detach_safe exRoot "p" "id" "a" (by decide) (by decide) (by decide)⟩

end HtmlUtil

